import Mathlib

/-!
Verification development for the cinemabot repository.

Shallow embedding of the core components described in the spec:
* `norm_query` (src/bot/cache.py) — query normalization;
* `TTLCache` (src/bot/cache.py) — bounded time-aware cache with lazy
  expiry on read and purge + soonest-expiry eviction on write;
* `search_candidates_sync`, `is_working`, `find_first_watch_link`
  (src/bot/watchlinks.py) — candidate discovery post-processing, link
  validation and the race coordinator;
* `on_query`'s metadata resolution cache flow (src/bot/handlers.py).

Modelling conventions: time is a `Nat` parameter passed explicitly
(`time.time()` in the source); the Python `dict` is an association list
in insertion order (ordinary dict semantics: assignment to an existing
key updates in place, a fresh key is appended; keys are unique);
network collaborators (TMDB lookups, HTTP fetches, DNS/url parsing from
the standard library) are oracle parameters, since their behaviour is
not part of this repository; Python's `str.lower` is modelled on the
ASCII range by `Char.toLower`, and `str.split()` whitespace on the
ASCII whitespace class.
-/

namespace Cinemabot

/-! ## Query normalizer (src/bot/cache.py, `norm_query`) -/

/-- ASCII whitespace class used by Python's `str.split()` / `str.strip()`:
space, tab, newline, vertical tab, form feed, carriage return. -/
def isSpace (c : Char) : Bool :=
  c.toNat = 32 || c.toNat = 9 || c.toNat = 10 || c.toNat = 11 ||
    c.toNat = 12 || c.toNat = 13

/-- Model of `str.strip()` on a character list: drop leading and trailing whitespace. -/
def stripL (l : List Char) : List Char :=
  ((l.dropWhile isSpace).reverse.dropWhile isSpace).reverse

/-- Model of `str.lower()` on a character list (ASCII model, per-character
`Char.toLower`). -/
def lowerL (l : List Char) : List Char :=
  l.map Char.toLower

/-- Model of `str.split()` with no separator: split on whitespace runs, discarding
empty fragments. -/
def splitWs (l : List Char) : List (List Char) :=
  (l.splitOnP isSpace).filter (fun w => !w.isEmpty)

/-- Model of `" ".join(ws)` on character lists. -/
def joinSp (ws : List (List Char)) : List Char :=
  List.intercalate [' '] ws

/-- Function `norm_query` from src/bot/cache.py:
`q = (q or "").strip().lower(); q = " ".join(q.split()); return q`. -/
def norm_query (s : String) : String :=
  String.mk (joinSp (splitWs (lowerL (stripL s.data))))

/-! ## TTL cache (src/bot/cache.py, `TTLCache`) -/

/-- Dataclass `_Entry` from src/bot/cache.py. -/
structure Entry (T : Type) where
  value : T
  expires_at : Nat
deriving DecidableEq, Repr

/-- The `TTLCache` state: `ttl`, `maxsize` and the insertion-ordered mapping
`_data` (association list with unique keys, modelling a Python dict). -/
structure TTLCache (T : Type) where
  ttl : Nat
  maxsize : Nat
  data : List (String × Entry T)
deriving DecidableEq, Repr

namespace TTLCache

variable {T : Type}

/-- Model of `dict.get(key)`: the entry bound to the first occurrence of `k`. -/
def findEntry (k : String) : List (String × Entry T) → Option (Entry T)
  | [] => none
  | (k', e) :: rest => if k' = k then some e else findEntry k rest

/-- Model of `dict.pop(key, None)`: remove the binding of `k` (keys are unique in a
dict, so removing every binding of `k` is the same operation). -/
def eraseKey (k : String) (d : List (String × Entry T)) :
    List (String × Entry T) :=
  d.filter (fun kv => kv.1 ≠ k)

/-- Model of the `dict` assignment `d[k] = e`: update in place if the key is present,
otherwise append at the end (insertion order). -/
def insertEntry (k : String) (e : Entry T) :
    List (String × Entry T) → List (String × Entry T)
  | [] => [(k, e)]
  | (k', e') :: rest =>
    if k' = k then (k, e) :: rest else (k', e') :: insertEntry k e rest

/-- Method `TTLCache.get`: return the value if present and unexpired; pop the
entry and return `none` if it is stale; never touch other keys.
Returns the (possibly updated) cache alongside the result. -/
def get (c : TTLCache T) (k : String) (now : Nat) :
    Option T × TTLCache T :=
  match findEntry k c.data with
  | none => (none, c)
  | some e =>
    if e.expires_at < now then
      (none, { c with data := eraseKey k c.data })
    else
      (some e.value, c)

/-- Method `TTLCache._trim`: purge expired entries, then, if still over capacity,
evict the keys of the `len - maxsize` soonest-to-expire entries
(`sorted(items, key=expires_at)` is a stable sort, modelled by
`List.insertionSort`). The dict keeps its insertion order, so eviction is a
filter over the purged list. -/
def trim (maxsize : Nat) (now : Nat) (d : List (String × Entry T)) :
    List (String × Entry T) :=
  let live := d.filter (fun kv => ¬ kv.2.expires_at < now)
  if live.length ≤ maxsize then live
  else
    let sortedItems :=
      List.insertionSort (fun a b => a.2.expires_at ≤ b.2.expires_at) live
    let evict := (sortedItems.take (live.length - maxsize)).map Prod.fst
    live.filter (fun kv => kv.1 ∉ evict)

/-- Method `TTLCache.set`: overwrite the entry with `expires_at = now + ttl`,
then run `_trim`. -/
def set (c : TTLCache T) (k : String) (v : T) (now : Nat) : TTLCache T :=
  { c with data := trim c.maxsize now (insertEntry k ⟨v, now + c.ttl⟩ c.data) }

end TTLCache

/-! ## Watch links (src/bot/watchlinks.py) -/

/-- Dataclass `WatchLink` from src/bot/watchlinks.py. -/
structure WatchLink where
  url : String
  domain : String
deriving DecidableEq, Repr

/-- What the validator inspects of the network fetch in `_is_working`:
final HTTP status after redirects, final URL, and the `Content-Type`
header (already defaulted to `""` when absent).  A raised
`aiohttp.ClientError` / `asyncio.TimeoutError` is modelled as `none` at
the use site. -/
structure FetchResponse where
  status : Nat
  finalUrl : String
  contentType : String
deriving DecidableEq, Repr

/-- Coroutine `_is_working` from src/bot/watchlinks.py.  `hostOf` is the oracle for
the standard-library `_host` helper (`urlparse(url).hostname or ""`,
lowercased); `fetch` is the oracle for `session.get` (`none` = network
failure, caught by the `except` clause).  Checks, in source order: no
host on the input URL; status outside `[200, 400)`; no host on the final
URL; `Content-Type` (lowercased) not containing `"text/html"` — each
yields `none` (Rejected); otherwise the final URL and final host are
accepted. -/
def is_working (hostOf : String → String) (fetch : Option FetchResponse)
    (url : String) : Option WatchLink :=
  if hostOf url = "" then none
  else
    match fetch with
    | none => none
    | some r =>
      if ¬ (200 ≤ r.status ∧ r.status < 400) then none
      else if hostOf r.finalUrl = "" then none
      else if ¬ ("text/html".data <:+: lowerL r.contentType.data) then
        none
      else some ⟨r.finalUrl, hostOf r.finalUrl⟩

/-- The dedup loop of `search_candidates_sync`
(`seen = set(); for u in urls: if u not in seen: seen.add(u); out.append(u)`). -/
def dedupFirst (seen : List String) : List String → List String
  | [] => []
  | u :: us =>
    if u ∈ seen then dedupFirst seen us else u :: dedupFirst (u :: seen) us

/-- Function `search_candidates_sync`: post-processing of the DDGS results (the raw
`href`/`url` strings are the oracle input `results`): strip each, keep
those starting with `http://` or `https://`, then dedupe preserving
first-seen order. -/
def search_candidates_sync (results : List String) : List String :=
  let urls := (results.map (fun s => String.mk (stripL s.data))).filter
    (fun u => "http://".data.isPrefixOf u.data ||
      "https://".data.isPrefixOf u.data)
  dedupFirst [] urls

/-- Spec-side definition of §3 *CandidateList* ("order = discovery order
with duplicates removed by first occurrence"): keep each URL and delete
its later duplicates.  Used to state that the source's seen-set loop
refines the spec's description. -/
def specDedupByFirstOccurrence : List String → List String
  | [] => []
  | u :: us => u :: specDedupByFirstOccurrence (us.filter (fun v => v ≠ u))
termination_by l => l.length
decreasing_by
  simp only [List.length_cons]
  exact Nat.lt_succ_of_le (List.length_filter_le _ _)

/-- The `as_completed` loop of `find_first_watch_link`: observe validation
outcomes in completion order (`completions` is the scheduling oracle — the
tasks' results in the order they finish); on the first acceptance, cancel
every task (`for t in tasks: t.cancel()`) and return immediately.
Returns (winner, completions actually observed, tasks signalled with
cancellation). -/
def race_loop (allTasks : List String) :
    List (String × Option WatchLink) →
      Option WatchLink × List (String × Option WatchLink) × List String
  | [] => (none, [], [])
  | (u, none) :: rest =>
    let r := race_loop allTasks rest
    (r.1, (u, none) :: r.2.1, r.2.2)
  | (u, some w) :: _ => (some w, [(u, some w)], allTasks)

/-- Coroutine `find_first_watch_link`: truncate the discovered candidates to
`total_limit`; if none remain, return `none` immediately, starting no
validation task; otherwise run the race over the candidates.  Returns the
winner together with the number of validation tasks created. -/
def find_first_watch_link (candidates0 : List String) (total_limit : Nat)
    (completions : List (String × Option WatchLink)) :
    Option WatchLink × Nat :=
  let candidates := candidates0.take total_limit
  if candidates.isEmpty then (none, 0)
  else ((race_loop candidates completions).1, candidates.length)

/-! ## Metadata resolution cache flow (src/bot/handlers.py, `on_query`) -/

/-- Dataclass `MovieMeta` from src/bot/tmdb.py.  The `rating` float is opaque to the
flow modelled here (no arithmetic on it occurs), carried as an `Option Int`
stand-in. -/
structure MovieMeta where
  tmdb_id : Nat
  media_type : String
  title : String
  year : Option String
  overview : Option String
  rating : Option Int
  poster_url : Option String
deriving DecidableEq, Repr

/-- The metadata-resolution portion of `on_query` (src/bot/handlers.py):
normalize the query; `meta = meta_cache.get(user_key)` — note the Python
assignment collapses a stored `None` (cached negative) with a missing key,
modelled by `Option.join`; on `meta is None`, call `tmdb_search_best` and,
when it finds a match, `tmdb_fetch_details` (collaborator oracles `search`
and `details`; `Except.error` models a raised `ClientError`/`TimeoutError`
escaping the collaborator into `on_query`'s `try`); write the outcome back
under the user key and, on success, also under the normalized-title key;
on an exception, cache an explicit `None` under the user key.  Returns
(resolved metadata, cache afterwards, number of collaborator calls made
by this invocation). -/
def on_query_meta (cache : TTLCache (Option MovieMeta)) (user_query : String)
    (search : Except Unit (Option MovieMeta))
    (details : Except Unit (Option MovieMeta)) (now : Nat) :
    Option MovieMeta × TTLCache (Option MovieMeta) × Nat :=
  let user_key := norm_query user_query
  let r := cache.get user_key now
  let cache1 := r.2
  match r.1.join with
  | some m => (some m, cache1, 0)
  | none =>
    match search with
    | .error _ => (none, cache1.set user_key none now, 1)
    | .ok none => (none, cache1.set user_key none now, 1)
    | .ok (some m0) =>
      match details with
      | .error _ => (none, cache1.set user_key none now, 2)
      | .ok dOpt =>
        let m := dOpt.getD m0
        let c1 := cache1.set user_key (some m) now
        let c2 := c1.set (norm_query m.title) (some m) now
        (some m, c2, 2)

/-! ## Normalizer lemmas -/

theorem toLower_toNat_of_upper {c : Char} (h : 65 ≤ c.toNat ∧ c.toNat ≤ 90) :
    (Char.toLower c).toNat = c.toNat + 32 := by
  have hv : (c.toNat + 32).isValidChar := Or.inl (by omega)
  simp only [Char.toLower, ge_iff_le, h, and_self, if_true]
  rw [Char.ofNat, dif_pos hv]
  rfl

theorem toLower_eq_self_of_not_upper {c : Char}
    (h : ¬(65 ≤ c.toNat ∧ c.toNat ≤ 90)) : Char.toLower c = c := by
  simp only [Char.toLower, ge_iff_le]
  rw [if_neg h]

theorem toLower_toLower (c : Char) :
    (Char.toLower c).toLower = Char.toLower c := by
  by_cases h : 65 ≤ c.toNat ∧ c.toNat ≤ 90
  · apply toLower_eq_self_of_not_upper
    rw [toLower_toNat_of_upper h]
    omega
  · rw [toLower_eq_self_of_not_upper h, toLower_eq_self_of_not_upper h]

theorem isSpace_false_of_ge {c : Char} (h : 33 ≤ c.toNat) :
    isSpace c = false := by
  simp only [isSpace, Bool.or_eq_false_iff, decide_eq_false_iff_not]
  omega

theorem isSpace_toLower (c : Char) : isSpace (Char.toLower c) = isSpace c := by
  by_cases h : 65 ≤ c.toNat ∧ c.toNat ≤ 90
  · rw [isSpace_false_of_ge (by rw [toLower_toNat_of_upper h]; omega),
      isSpace_false_of_ge (by omega)]
  · rw [toLower_eq_self_of_not_upper h]

theorem mem_splitOnP_not_space {l : List Char} :
    ∀ w ∈ l.splitOnP isSpace, ∀ c ∈ w, isSpace c = false := by
  induction l with
  | nil =>
    intro w hw
    simp only [List.splitOnP_nil, List.mem_singleton] at hw
    subst hw; intro c hc; cases hc
  | cons a l ih =>
    intro w hw
    rw [List.splitOnP_cons] at hw
    by_cases ha : isSpace a
    · rw [if_pos ha] at hw
      rcases List.mem_cons.mp hw with h | h
      · subst h; intro c hc; cases hc
      · exact ih w h
    · rw [if_neg ha] at hw
      obtain ⟨v, t, heq⟩ := List.exists_cons_of_ne_nil (List.splitOnP_ne_nil isSpace l)
      rw [heq] at hw ih
      simp only [List.modifyHead, List.mem_cons] at hw
      rcases hw with hw | hw
      · subst hw
        intro c hc
        rcases List.mem_cons.mp hc with rfl | hc
        · simpa using ha
        · exact ih v (List.mem_cons_self v t) c hc
      · exact ih w (List.mem_cons_of_mem v hw)

theorem mem_splitOnP_mem {l : List Char} :
    ∀ w ∈ l.splitOnP isSpace, ∀ c ∈ w, c ∈ l := by
  induction l with
  | nil =>
    intro w hw
    simp only [List.splitOnP_nil, List.mem_singleton] at hw
    subst hw; intro c hc; cases hc
  | cons a l ih =>
    intro w hw
    rw [List.splitOnP_cons] at hw
    by_cases ha : isSpace a
    · rw [if_pos ha] at hw
      rcases List.mem_cons.mp hw with h | h
      · subst h; intro c hc; cases hc
      · exact fun c hc => List.mem_cons_of_mem a (ih w h c hc)
    · rw [if_neg ha] at hw
      obtain ⟨v, t, heq⟩ := List.exists_cons_of_ne_nil (List.splitOnP_ne_nil isSpace l)
      rw [heq] at hw ih
      simp only [List.modifyHead, List.mem_cons] at hw
      rcases hw with hw | hw
      · subst hw
        intro c hc
        rcases List.mem_cons.mp hc with rfl | hc
        · exact List.mem_cons_self c l
        · exact List.mem_cons_of_mem a (ih v (List.mem_cons_self v t) c hc)
      · exact fun c hc => List.mem_cons_of_mem a (ih w (List.mem_cons_of_mem v hw) c hc)

theorem mem_splitWs {l w : List Char} (hw : w ∈ splitWs l) :
    w ≠ [] ∧ (∀ c ∈ w, isSpace c = false) ∧ ∀ c ∈ w, c ∈ l := by
  unfold splitWs at hw
  obtain ⟨hmem, hne⟩ := List.mem_filter.mp hw
  refine ⟨?_, mem_splitOnP_not_space w hmem, mem_splitOnP_mem w hmem⟩
  simpa using hne

@[simp] theorem joinSp_nil : joinSp [] = [] := rfl

@[simp] theorem joinSp_singleton (w : List Char) : joinSp [w] = w := by
  simp [joinSp, List.intercalate]

theorem joinSp_cons_cons (w w' : List Char) (ws : List (List Char)) :
    joinSp (w :: w' :: ws) = w ++ ' ' :: joinSp (w' :: ws) := by
  simp [joinSp, List.intercalate]

theorem joinSp_ne_nil {w : List Char} (hw : w ≠ []) (ws : List (List Char)) :
    joinSp (w :: ws) ≠ [] := by
  cases ws with
  | nil => simpa using hw
  | cons w' ws =>
    rw [joinSp_cons_cons]
    cases w with
    | nil => simp
    | cons c cs => simp

theorem joinSp_cons_head (c : Char) (cs : List Char) (ws : List (List Char)) :
    ∃ r, joinSp ((c :: cs) :: ws) = c :: r := by
  cases ws with
  | nil => exact ⟨cs, by simp⟩
  | cons w' ws => exact ⟨cs ++ ' ' :: joinSp (w' :: ws), by rw [joinSp_cons_cons]; rfl⟩

theorem mem_joinSp {ws : List (List Char)} :
    ∀ c ∈ joinSp ws, c = ' ' ∨ ∃ w ∈ ws, c ∈ w := by
  induction ws with
  | nil => intro c hc; cases hc
  | cons w ws ih =>
    cases ws with
    | nil =>
      intro c hc
      rw [joinSp_singleton] at hc
      exact Or.inr ⟨w, List.mem_cons_self w [], hc⟩
    | cons w' ws' =>
      intro c hc
      rw [joinSp_cons_cons] at hc
      rcases List.mem_append.mp hc with hc | hc
      · exact Or.inr ⟨w, List.mem_cons_self w _, hc⟩
      · rcases List.mem_cons.mp hc with rfl | hc
        · exact Or.inl rfl
        · rcases ih c hc with h | ⟨v, hv, hcv⟩
          · exact Or.inl h
          · exact Or.inr ⟨v, List.mem_cons_of_mem w hv, hcv⟩

/-- The join of nonempty space-free words has no trailing whitespace
(stated on the reversed list). -/
theorem dropWhile_reverse_joinSp {ws : List (List Char)}
    (h : ∀ w ∈ ws, w ≠ [] ∧ ∀ c ∈ w, isSpace c = false) :
    (joinSp ws).reverse.dropWhile isSpace = (joinSp ws).reverse := by
  induction ws with
  | nil => rfl
  | cons w ws ih =>
    obtain ⟨hne, hsp⟩ := h w (List.mem_cons_self w ws)
    cases ws with
    | nil =>
      rcases List.eq_nil_or_concat' w with rfl | ⟨ys, a, rfl⟩
      · exact absurd rfl hne
      · have ha : isSpace a = false := hsp a (by simp)
        rw [joinSp_singleton, List.reverse_concat, List.dropWhile_cons, ha]
        simp
    | cons w' ws' =>
      rw [joinSp_cons_cons, List.reverse_append, List.reverse_cons,
        List.append_assoc]
      have ih' := ih (fun v hv => h v (List.mem_cons_of_mem _ hv))
      rw [List.dropWhile_append, ih']
      have hnn : (joinSp (w' :: ws')).reverse ≠ [] := by
        simpa using joinSp_ne_nil (h w' (by simp)).1 ws'
      rw [if_neg (by simpa using hnn)]

/-- The join of nonempty space-free words is left unchanged by `strip`. -/
theorem stripL_joinSp {ws : List (List Char)}
    (h : ∀ w ∈ ws, w ≠ [] ∧ ∀ c ∈ w, isSpace c = false) :
    stripL (joinSp ws) = joinSp ws := by
  cases ws with
  | nil => rfl
  | cons w ws =>
    obtain ⟨hne, hsp⟩ := h w (List.mem_cons_self w ws)
    obtain ⟨c, cs, rfl⟩ := List.exists_cons_of_ne_nil hne
    obtain ⟨r, hr⟩ := joinSp_cons_head c cs ws
    unfold stripL
    rw [hr, List.dropWhile_cons,
      show isSpace c = false from hsp c (List.mem_cons_self c cs), ← hr,
      if_neg (by simp), dropWhile_reverse_joinSp h, List.reverse_reverse]

/-- The join of fully lowercased words is left unchanged by `lower`. -/
theorem lowerL_joinSp {ws : List (List Char)}
    (h : ∀ w ∈ ws, ∀ c ∈ w, Char.toLower c = c) :
    lowerL (joinSp ws) = joinSp ws := by
  unfold lowerL
  rw [List.map_congr_left, List.map_id]
  intro c hc
  rcases mem_joinSp c hc with rfl | ⟨w, hw, hcw⟩
  · decide
  · exact h w hw c hcw

/-- Splitting is a left inverse of joining on nonempty space-free words. -/
theorem splitWs_joinSp {ws : List (List Char)}
    (h : ∀ w ∈ ws, w ≠ [] ∧ ∀ c ∈ w, isSpace c = false) :
    splitWs (joinSp ws) = ws := by
  induction ws with
  | nil => rfl
  | cons w ws ih =>
    obtain ⟨hne, hsp⟩ := h w (List.mem_cons_self w ws)
    cases ws with
    | nil =>
      rw [joinSp_singleton]
      unfold splitWs
      rw [List.splitOnP_eq_single _ _ (by simpa using hsp)]
      simp [hne]
    | cons w' ws' =>
      rw [joinSp_cons_cons]
      unfold splitWs
      rw [List.splitOnP_first _ _ (by simpa using hsp) ' ' (by decide)]
      have ih' := ih (fun v hv => h v (List.mem_cons_of_mem w hv))
      unfold splitWs at ih'
      simp only [List.filter_cons, hne, joinSp]
      simp only [joinSp] at ih'
      rw [ih']
      simp [hne]

theorem normL_fix {m : List Char} (hlow : ∀ c ∈ m, Char.toLower c = c) :
    joinSp (splitWs (lowerL (stripL (joinSp (splitWs m))))) =
      joinSp (splitWs m) := by
  have hgood : ∀ w ∈ splitWs m, w ≠ [] ∧ ∀ c ∈ w, isSpace c = false :=
    fun w hw => ⟨(mem_splitWs hw).1, (mem_splitWs hw).2.1⟩
  have hlow' : ∀ w ∈ splitWs m, ∀ c ∈ w, Char.toLower c = c :=
    fun w hw c hc => hlow c ((mem_splitWs hw).2.2 c hc)
  rw [stripL_joinSp hgood, lowerL_joinSp hlow', splitWs_joinSp hgood]

/-- Claim C6: the query normalizer is idempotent —
`norm_query (norm_query x) = norm_query x` for every string `x` — and
case/whitespace variants normalize to the same key:
`norm_query "  Matrix   1999 "`, `norm_query "matrix 1999"` and
`norm_query "MATRIX 1999"` are all equal. -/
theorem norm_query_idempotent :
    (∀ x : String, norm_query (norm_query x) = norm_query x) ∧
    norm_query "  Matrix   1999 " = norm_query "matrix 1999" ∧
    norm_query "MATRIX 1999" = norm_query "matrix 1999" := by
  refine ⟨fun x => ?_, by decide, by decide⟩
  show String.mk (joinSp (splitWs (lowerL (stripL
      (joinSp (splitWs (lowerL (stripL x.data)))))))) = _
  exact congrArg String.mk (normL_fix (by
    intro c hc
    obtain ⟨d, _, rfl⟩ := List.mem_map.mp hc
    exact toLower_toLower d))

/-! ## TTL cache lemmas -/

namespace TTLCache

variable {T : Type}

theorem findEntry_insertEntry_self (k : String) (e : Entry T)
    (d : List (String × Entry T)) :
    findEntry k (insertEntry k e d) = some e := by
  induction d with
  | nil => simp [insertEntry, findEntry]
  | cons kv rest ih =>
    obtain ⟨k', e'⟩ := kv
    by_cases h : k' = k
    · simp [insertEntry, h, findEntry]
    · simp [insertEntry, h, findEntry, ih]

theorem findEntry_insertEntry_ne {k k' : String} (hne : k' ≠ k) (e : Entry T)
    (d : List (String × Entry T)) :
    findEntry k' (insertEntry k e d) = findEntry k' d := by
  have hkk : ¬ k = k' := fun h => hne h.symm
  induction d with
  | nil => simp only [insertEntry, findEntry, if_neg hkk]
  | cons kv rest ih =>
    obtain ⟨k₁, e₁⟩ := kv
    simp only [insertEntry]
    by_cases h : k₁ = k
    · rw [if_pos h]
      subst h
      simp only [findEntry, if_neg hkk]
    · rw [if_neg h]
      simp only [findEntry]
      by_cases h' : k₁ = k'
      · rw [if_pos h', if_pos h']
      · rw [if_neg h', if_neg h', ih]

theorem findEntry_filter_some {k : String} {e : Entry T}
    {d : List (String × Entry T)} {p : String × Entry T → Bool}
    (hf : findEntry k d = some e) (hp : p (k, e) = true) :
    findEntry k (d.filter p) = some e := by
  induction d with
  | nil => simp [findEntry] at hf
  | cons kv rest ih =>
    obtain ⟨k₁, e₁⟩ := kv
    by_cases h : k₁ = k
    · subst h
      simp only [findEntry, if_pos rfl] at hf
      obtain rfl : e₁ = e := by injection hf
      rw [List.filter_cons, if_pos hp]
      simp [findEntry]
    · simp only [findEntry, if_neg h] at hf
      rw [List.filter_cons]
      by_cases hk : p (k₁, e₁)
      · rw [if_pos hk]
        simp only [findEntry, if_neg h]
        exact ih hf
      · rw [if_neg (by simpa using hk)]
        exact ih hf

theorem findEntry_filter_of_keeps {k' : String}
    {d : List (String × Entry T)} {p : String × Entry T → Bool}
    (hp : ∀ e, p (k', e) = true) :
    findEntry k' (d.filter p) = findEntry k' d := by
  induction d with
  | nil => rfl
  | cons kv rest ih =>
    obtain ⟨k₁, e₁⟩ := kv
    by_cases h : k₁ = k'
    · subst h
      rw [List.filter_cons, if_pos (hp e₁)]
      simp [findEntry]
    · rw [List.filter_cons]
      simp only [findEntry, if_neg h]
      by_cases hk : p (k₁, e₁)
      · rw [if_pos hk]
        simp only [findEntry, if_neg h]
        exact ih
      · rw [if_neg (by simpa using hk)]
        exact ih

theorem findEntry_eraseKey_self (k : String) (d : List (String × Entry T)) :
    findEntry k (eraseKey k d) = none := by
  induction d with
  | nil => rfl
  | cons kv rest ih =>
    obtain ⟨k₁, e₁⟩ := kv
    by_cases h : k₁ = k
    · subst h
      simp only [eraseKey, List.filter_cons]
      rw [if_neg (by simp)]
      exact ih
    · simp only [eraseKey, List.filter_cons]
      rw [if_pos (by simpa using h)]
      simp only [findEntry, if_neg h]
      exact ih

theorem findEntry_eraseKey_ne {k k' : String} (hne : k' ≠ k)
    (d : List (String × Entry T)) :
    findEntry k' (eraseKey k d) = findEntry k' d :=
  findEntry_filter_of_keeps (fun _ => by simpa using hne)

theorem length_insertEntry (k : String) (e : Entry T)
    (d : List (String × Entry T)) :
    (insertEntry k e d).length ≤ d.length + 1 := by
  induction d with
  | nil => simp [insertEntry]
  | cons kv rest ih =>
    obtain ⟨k₁, e₁⟩ := kv
    by_cases h : k₁ = k
    · simp [insertEntry, h]
    · simp only [insertEntry, if_neg h, List.length_cons]
      omega

theorem get_eq_none {c : TTLCache T} {k : String} {now : Nat}
    (hf : findEntry k c.data = none) : c.get k now = (none, c) := by
  unfold get
  rw [hf]

theorem get_eq_expired {c : TTLCache T} {k : String} {now : Nat}
    {e : Entry T} (hf : findEntry k c.data = some e)
    (hex : e.expires_at < now) :
    c.get k now = (none, { c with data := eraseKey k c.data }) := by
  unfold get
  rw [hf]
  exact if_pos hex

theorem get_eq_live {c : TTLCache T} {k : String} {now : Nat}
    {e : Entry T} (hf : findEntry k c.data = some e)
    (hex : ¬ e.expires_at < now) :
    c.get k now = (some e.value, c) := by
  unfold get
  rw [hf]
  exact if_neg hex

/-- When the purged list fits into `maxsize`, `_trim` is just the purge. -/
theorem trim_eq_filter {maxsize now : Nat} {d : List (String × Entry T)}
    (h : (d.filter (fun kv => ¬ kv.2.expires_at < now)).length ≤ maxsize) :
    trim maxsize now d = d.filter (fun kv => ¬ kv.2.expires_at < now) := by
  simp only [trim]
  rw [if_pos h]

/-- After `set`, the key holds the fresh entry, provided the cache had
room (`_trim` then never reaches capacity-based eviction, and the fresh
entry is not expired). -/
theorem findEntry_set_self (c : TTLCache T) (k : String) (v : T) (t : Nat)
    (hroom : c.data.length < c.maxsize) :
    findEntry k (c.set k v t).data = some ⟨v, t + c.ttl⟩ := by
  show findEntry k (trim c.maxsize t (insertEntry k ⟨v, t + c.ttl⟩ c.data))
    = some ⟨v, t + c.ttl⟩
  rw [trim_eq_filter (le_trans (List.length_filter_le _ _)
    (le_trans (length_insertEntry _ _ _) hroom))]
  exact findEntry_filter_some (findEntry_insertEntry_self _ _ _)
    (by simp)

/-- Claim C4: `set(k, v)` then `get(k)` within the TTL window returns `v`;
once the TTL has elapsed (strictly after `t + ttl`, the code's
`expires_at < now` test), `get(k)` returns absent and removes the stale
entry from the mapping.  `hroom` keeps `_trim`'s capacity eviction out of
the picture (the cache has room for the write). -/
theorem cache_ttl (c : TTLCache T) (k : String) (v : T) (t t₁ t₂ : Nat)
    (hroom : c.data.length < c.maxsize)
    (hlive : t₁ ≤ t + c.ttl) (hexp : t + c.ttl < t₂) :
    ((c.set k v t).get k t₁).1 = some v ∧
    ((c.set k v t).get k t₂).1 = none ∧
    findEntry k (((c.set k v t).get k t₂).2.data) = none := by
  have hfind := findEntry_set_self c k v t hroom
  refine ⟨?_, ?_, ?_⟩
  · rw [get_eq_live hfind (show ¬ t + c.ttl < t₁ by omega)]
  · rw [get_eq_expired hfind (show t + c.ttl < t₂ by omega)]
  · rw [get_eq_expired hfind (show t + c.ttl < t₂ by omega)]
    exact findEntry_eraseKey_self _ _

theorem cache_ttl_witness :
    ((((TTLCache.mk 10 2 ([] : List (String × Entry Nat))).set "a" 7
        100).get "a" 105).1 = some 7) ∧
    ((((TTLCache.mk 10 2 ([] : List (String × Entry Nat))).set "a" 7
        100).get "a" 111).1 = none) ∧
    findEntry "a" ((((TTLCache.mk 10 2
        ([] : List (String × Entry Nat))).set "a" 7 100).get
        "a" 111).2.data) = none :=
  cache_ttl ⟨10, 2, []⟩ "a" 7 100 105 111 (by decide) (by decide) (by decide)

/-- Claim C10: `get k` touches at most the entry for `k`: every other key's
binding is unchanged, and the cache itself is unchanged unless the entry
for `k` exists and is expired. -/
theorem cache_get_frame (c : TTLCache T) (k k' : String) (now : Nat)
    (hne : k' ≠ k) :
    findEntry k' ((c.get k now).2.data) = findEntry k' c.data ∧
    (findEntry k c.data = none → (c.get k now).2 = c) ∧
    (∀ e, findEntry k c.data = some e → ¬ e.expires_at < now →
      (c.get k now).2 = c) := by
  refine ⟨?_, ?_, ?_⟩
  · cases hf : findEntry k c.data with
    | none => rw [get_eq_none hf]
    | some e =>
      by_cases hex : e.expires_at < now
      · rw [get_eq_expired hf hex]
        exact findEntry_eraseKey_ne hne c.data
      · rw [get_eq_live hf hex]
  · intro hf
    rw [get_eq_none hf]
  · intro e hf hex
    rw [get_eq_live hf hex]

theorem cache_get_frame_witness :
    findEntry "b" (((TTLCache.mk 10 2 [("a", ⟨5, 100⟩),
        ("b", ⟨6, 200⟩)] : TTLCache Nat).get "a" 150).2.data) =
      findEntry "b" [("a", (⟨5, 100⟩ : Entry Nat)), ("b", ⟨6, 200⟩)] ∧
    (findEntry "a" [("a", (⟨5, 100⟩ : Entry Nat)), ("b", ⟨6, 200⟩)] = none →
      ((TTLCache.mk 10 2 [("a", ⟨5, 100⟩), ("b", ⟨6, 200⟩)] :
        TTLCache Nat).get "a" 150).2 = ⟨10, 2, [("a", ⟨5, 100⟩), ("b", ⟨6, 200⟩)]⟩) ∧
    (∀ e, findEntry "a" [("a", (⟨5, 100⟩ : Entry Nat)), ("b", ⟨6, 200⟩)] = some e →
      ¬ e.expires_at < 150 →
      ((TTLCache.mk 10 2 [("a", ⟨5, 100⟩), ("b", ⟨6, 200⟩)] :
        TTLCache Nat).get "a" 150).2 = ⟨10, 2, [("a", ⟨5, 100⟩), ("b", ⟨6, 200⟩)]⟩) :=
  cache_get_frame ⟨10, 2, [("a", ⟨5, 100⟩), ("b", ⟨6, 200⟩)]⟩ "a" "b" 150
    (by decide)

/-- Over capacity, `_trim` is: purge, then filter out the keys of the
`len - maxsize` soonest-to-expire entries of the stable sort. -/
theorem trim_eq_evict {maxsize now : Nat} {d : List (String × Entry T)}
    (h : ¬ (d.filter (fun kv => ¬ kv.2.expires_at < now)).length ≤ maxsize) :
    trim maxsize now d =
      (d.filter (fun kv => ¬ kv.2.expires_at < now)).filter
        (fun kv => kv.1 ∉ ((List.insertionSort
            (fun a b => a.2.expires_at ≤ b.2.expires_at)
            (d.filter (fun kv => ¬ kv.2.expires_at < now))).take
          ((d.filter (fun kv => ¬ kv.2.expires_at < now)).length -
            maxsize)).map Prod.fst) := by
  simp only [trim]
  rw [if_neg h]

/-- In a list sorted by expiry, everything in the taken prefix expires no
later than anything in the dropped suffix. -/
theorem sorted_take_drop_cross {s : List (String × Entry T)} {n : Nat}
    (hs : List.Sorted
      (fun a b : String × Entry T => a.2.expires_at ≤ b.2.expires_at) s)
    {x y : String × Entry T} (hx : x ∈ s.take n) (hy : y ∈ s.drop n) :
    x.2.expires_at ≤ y.2.expires_at := by
  have h2 : List.Sorted
      (fun a b : String × Entry T => a.2.expires_at ≤ b.2.expires_at)
      (s.take n ++ s.drop n) := by
    rw [List.take_append_drop]
    exact hs
  exact (List.pairwise_append.mp h2).2.2 x hx y hy

/-- Filtering away everything whose key appears in the first `n` slots of
a permutation of the list keeps at most `length - n` elements. -/
theorem length_filter_le_of_take_false {A : Type} {live s : List A}
    (hperm : s.Perm live) (n : Nat) (P : A → Bool)
    (hP : ∀ a ∈ s.take n, P a = false) :
    (live.filter P).length ≤ live.length - n := by
  have h1 : (live.filter P).length = live.countP P :=
    (List.countP_eq_length_filter P live).symm
  have h2 : live.countP P = s.countP P := (hperm.countP_eq P).symm
  have h3 : s.countP P = (s.take n).countP P + (s.drop n).countP P := by
    conv_lhs => rw [← List.take_append_drop n s]
    rw [List.countP_append]
  have h4 : (s.take n).countP P = 0 :=
    List.countP_eq_zero.mpr (by intro a ha; simp [hP a ha])
  have h5 : (s.drop n).countP P ≤ (s.drop n).length := List.countP_le_length _
  have h6 : (s.drop n).length = s.length - n := List.length_drop n s
  have h7 : s.length = live.length := hperm.length_eq
  omega

theorem length_evict_le (live : List (String × Entry T))
    (m : Nat) (h : ¬ live.length ≤ m) :
    (live.filter (fun kv => kv.1 ∉ ((List.insertionSort
        (fun a b => a.2.expires_at ≤ b.2.expires_at) live).take
      (live.length - m)).map Prod.fst)).length ≤ m := by
  have hle := length_filter_le_of_take_false
    (List.perm_insertionSort
      (fun a b : String × Entry T => a.2.expires_at ≤ b.2.expires_at) live)
    (live.length - m)
    (fun kv => decide (kv.1 ∉ ((List.insertionSort
        (fun a b => a.2.expires_at ≤ b.2.expires_at) live).take
      (live.length - m)).map Prod.fst))
    (by
      intro kv hkv
      simp only [decide_eq_false_iff_not, Decidable.not_not]
      exact List.mem_map_of_mem Prod.fst hkv)
  have : live.length - (live.length - m) = m := by omega
  rw [this] at hle
  exact hle

/-- Any live entry removed by the capacity-eviction filter expires no
later than every surviving entry (keys are unique). -/
theorem evicted_le_survivors {live : List (String × Entry T)} {m : Nat}
    (hnd : (live.map Prod.fst).Nodup)
    {kv : String × Entry T} (hklive : kv ∈ live)
    (hgone : kv.1 ∉ (live.filter (fun x => x.1 ∉ ((List.insertionSort
        (fun a b => a.2.expires_at ≤ b.2.expires_at) live).take
      (live.length - m)).map Prod.fst)).map Prod.fst) :
    ∀ kv' ∈ live.filter (fun x => x.1 ∉ ((List.insertionSort
        (fun a b => a.2.expires_at ≤ b.2.expires_at) live).take
      (live.length - m)).map Prod.fst),
      kv.2.expires_at ≤ kv'.2.expires_at := by
  intro kv' hkv'
  have hperm : List.Perm
      (List.insertionSort
        (fun a b : String × Entry T => a.2.expires_at ≤ b.2.expires_at) live)
      live :=
    List.perm_insertionSort _ live
  have hks : kv ∈ List.insertionSort
      (fun a b : String × Entry T => a.2.expires_at ≤ b.2.expires_at) live :=
    hperm.mem_iff.mpr hklive
  have hkevict : kv.1 ∈ ((List.insertionSort
      (fun a b : String × Entry T => a.2.expires_at ≤ b.2.expires_at)
        live).take (live.length - m)).map Prod.fst := by
    by_contra hne
    exact hgone (List.mem_map_of_mem Prod.fst
      (List.mem_filter.mpr ⟨hklive, by simpa using hne⟩))
  obtain ⟨kv₀, hkv₀take, hkv₀fst⟩ := List.mem_map.mp hkevict
  have hnds : ((List.insertionSort
      (fun a b : String × Entry T => a.2.expires_at ≤ b.2.expires_at)
        live).map Prod.fst).Nodup :=
    ((hperm.map Prod.fst).nodup_iff).mpr hnd
  have hkv₀s : kv₀ ∈ List.insertionSort
      (fun a b : String × Entry T => a.2.expires_at ≤ b.2.expires_at) live :=
    List.take_subset _ _ hkv₀take
  obtain rfl : kv₀ = kv :=
    List.inj_on_of_nodup_map hnds hkv₀s hks hkv₀fst
  have hk'live : kv' ∈ live := (List.mem_filter.mp hkv').1
  have hk'not : kv'.1 ∉ ((List.insertionSort
      (fun a b : String × Entry T => a.2.expires_at ≤ b.2.expires_at)
        live).take (live.length - m)).map Prod.fst := by
    have := (List.mem_filter.mp hkv').2
    simpa using this
  have hk's : kv' ∈ (List.insertionSort
      (fun a b : String × Entry T => a.2.expires_at ≤ b.2.expires_at)
        live).take (live.length - m) ++
      (List.insertionSort
        (fun a b : String × Entry T => a.2.expires_at ≤ b.2.expires_at)
          live).drop (live.length - m) := by
    rw [List.take_append_drop]
    exact hperm.mem_iff.mpr hk'live
  have hk'drop : kv' ∈ (List.insertionSort
      (fun a b : String × Entry T => a.2.expires_at ≤ b.2.expires_at)
        live).drop (live.length - m) := by
    rcases List.mem_append.mp hk's with htake | hdrop
    · exact absurd (List.mem_map_of_mem Prod.fst htake) hk'not
    · exact hdrop
  haveI : IsTotal (String × Entry T)
      (fun a b => a.2.expires_at ≤ b.2.expires_at) :=
    ⟨fun a b => Nat.le_total _ _⟩
  haveI : IsTrans (String × Entry T)
      (fun a b => a.2.expires_at ≤ b.2.expires_at) :=
    ⟨fun _ _ _ hab hbc => Nat.le_trans hab hbc⟩
  exact sorted_take_drop_cross
    (List.sorted_insertionSort
      (fun a b : String × Entry T => a.2.expires_at ≤ b.2.expires_at) live)
    hkv₀take hk'drop

theorem mem_keys_insertEntry {a k : String} {e : Entry T}
    {d : List (String × Entry T)} :
    a ∈ (insertEntry k e d).map Prod.fst ↔
      a = k ∨ a ∈ d.map Prod.fst := by
  induction d with
  | nil => simp [insertEntry]
  | cons kv rest ih =>
    obtain ⟨k₁, e₁⟩ := kv
    simp only [insertEntry]
    by_cases h : k₁ = k
    · subst h
      rw [if_pos rfl]
      simp only [List.map_cons, List.mem_cons]
      tauto
    · rw [if_neg h]
      simp only [List.map_cons, List.mem_cons] at ih ⊢
      rw [ih]
      tauto

theorem nodup_keys_insertEntry {k : String} {e : Entry T}
    {d : List (String × Entry T)} (hnd : (d.map Prod.fst).Nodup) :
    ((insertEntry k e d).map Prod.fst).Nodup := by
  induction d with
  | nil => simp [insertEntry]
  | cons kv rest ih =>
    obtain ⟨k₁, e₁⟩ := kv
    simp only [List.map_cons, List.nodup_cons] at hnd
    simp only [insertEntry]
    by_cases h : k₁ = k
    · subst h
      rw [if_pos rfl]
      simp only [List.map_cons, List.nodup_cons]
      exact hnd
    · rw [if_neg h]
      simp only [List.map_cons, List.nodup_cons]
      refine ⟨?_, ih hnd.2⟩
      intro hmem
      rcases mem_keys_insertEntry.mp hmem with rfl | hmem
      · exact h rfl
      · exact hnd.1 hmem

/-- Claim C5: after every `set`: the cache holds at most `maxsize` entries;
no expired entry survives the write (expired entries are purged first);
and any still-live pre-trim entry that was nevertheless evicted expires
no later than every surviving entry (eviction removes the
soonest-to-expire first).  `hnd` is the dict invariant (unique keys). -/
theorem cache_capacity (c : TTLCache T) (k : String) (v : T) (t : Nat)
    (hnd : (c.data.map Prod.fst).Nodup) :
    (c.set k v t).data.length ≤ c.maxsize ∧
    (∀ kv ∈ (c.set k v t).data, ¬ kv.2.expires_at < t) ∧
    (∀ kv ∈ insertEntry k ⟨v, t + c.ttl⟩ c.data, ¬ kv.2.expires_at < t →
      kv.1 ∉ (c.set k v t).data.map Prod.fst →
      ∀ kv' ∈ (c.set k v t).data, kv.2.expires_at ≤ kv'.2.expires_at) := by
  have hset : (c.set k v t).data
      = trim c.maxsize t (insertEntry k ⟨v, t + c.ttl⟩ c.data) := rfl
  by_cases hcap : ((insertEntry k ⟨v, t + c.ttl⟩ c.data).filter
      (fun kv => ¬ kv.2.expires_at < t)).length ≤ c.maxsize
  · rw [hset, trim_eq_filter hcap]
    refine ⟨hcap, ?_, ?_⟩
    · intro kv hkv
      have := (List.mem_filter.mp hkv).2
      simpa using this
    · intro kv hkvmem hkvlive hgone kv' hkv'
      exact absurd (List.mem_map_of_mem Prod.fst
        (List.mem_filter.mpr ⟨hkvmem, by simpa using hkvlive⟩)) hgone
  · have hndlive : (((insertEntry k ⟨v, t + c.ttl⟩ c.data).filter
        (fun kv => ¬ kv.2.expires_at < t)).map Prod.fst).Nodup :=
      (nodup_keys_insertEntry hnd).sublist
        ((List.filter_sublist _).map Prod.fst)
    rw [hset, trim_eq_evict hcap]
    refine ⟨length_evict_le _ _ hcap, ?_, ?_⟩
    · intro kv hkv
      have h1 := (List.mem_filter.mp hkv).1
      have := (List.mem_filter.mp h1).2
      simpa using this
    · intro kv hkvmem hkvlive hgone kv' hkv'
      exact evicted_le_survivors hndlive
        (List.mem_filter.mpr ⟨hkvmem, by simpa using hkvlive⟩) hgone kv' hkv'

theorem cache_capacity_witness :
    ((TTLCache.mk 10 1 [("a", ⟨1, 105⟩)] : TTLCache Nat).set "b" 2
        100).data.length ≤ 1 ∧
    (∀ kv ∈ ((TTLCache.mk 10 1 [("a", ⟨1, 105⟩)] : TTLCache Nat).set "b" 2
        100).data, ¬ kv.2.expires_at < 100) ∧
    (∀ kv ∈ insertEntry "b" ⟨2, 110⟩ [("a", (⟨1, 105⟩ : Entry Nat))],
      ¬ kv.2.expires_at < 100 →
      kv.1 ∉ ((TTLCache.mk 10 1 [("a", ⟨1, 105⟩)] : TTLCache Nat).set "b" 2
        100).data.map Prod.fst →
      ∀ kv' ∈ ((TTLCache.mk 10 1 [("a", ⟨1, 105⟩)] : TTLCache Nat).set "b" 2
        100).data, kv.2.expires_at ≤ kv'.2.expires_at) :=
  cache_capacity ⟨10, 1, [("a", ⟨1, 105⟩)]⟩ "b" 2 100 (by decide)

end TTLCache

/-! ## Race coordinator and validator theorems -/

/-- Claim C2: in the race coordinator, the first `Accepted` outcome in
completion order wins: if every completion observed before `(u, some w)`
was a rejection, the coordinator returns `w`, observes exactly the prefix
up to and including the winner (no further completions), and signals
cancellation to every task.  The tail `post` of later (cancelled/late)
completions does not occur in the result at all, so a late outcome can
never overwrite the winner. -/
theorem race_first_accepted_wins (allTasks : List String)
    (pre post : List (String × Option WatchLink)) (u : String)
    (w : WatchLink) (hpre : ∀ x ∈ pre, x.2 = none) :
    race_loop allTasks (pre ++ (u, some w) :: post) =
      (some w, pre ++ [(u, some w)], allTasks) := by
  induction pre with
  | nil => rfl
  | cons x pre ih =>
    obtain ⟨v, o⟩ := x
    have ho : o = none := hpre (v, o) (List.mem_cons_self _ _)
    subst ho
    have ih' := ih (fun y hy => hpre y (List.mem_cons_of_mem _ hy))
    simp only [List.cons_append, race_loop, List.append_eq, ih']

theorem race_first_accepted_wins_witness :
    race_loop ["u1", "u2", "u3"]
        ([("u2", none)] ++ ("u3", some ⟨"http://f/x", "f"⟩) ::
          [("u1", some ⟨"http://g/y", "g"⟩)]) =
      (some ⟨"http://f/x", "f"⟩,
        [("u2", none)] ++ [("u3", some ⟨"http://f/x", "f"⟩)],
        ["u1", "u2", "u3"]) :=
  race_first_accepted_wins ["u1", "u2", "u3"] [("u2", none)]
    [("u1", some ⟨"http://g/y", "g"⟩)] "u3" ⟨"http://f/x", "f"⟩
    (by decide)

/-- Claim C3: the link validator is a total function into
`Option WatchLink` (it cannot propagate an exception, by construction of
the embedding), and every listed failure mode yields `none` (Rejected):
input URL with no host, network-level failure, final status outside
`[200, 400)`, final URL with no host, or a non-HTML content type. -/
theorem validator_rejects (hostOf : String → String)
    (fetch : Option FetchResponse) (url : String)
    (h : hostOf url = "" ∨ fetch = none ∨
      (∃ r, fetch = some r ∧ (r.status < 200 ∨ 400 ≤ r.status)) ∨
      (∃ r, fetch = some r ∧ hostOf r.finalUrl = "") ∨
      (∃ r, fetch = some r ∧
        ¬ ("text/html".data <:+: lowerL r.contentType.data))) :
    is_working hostOf fetch url = none := by
  rcases h with h | h | ⟨r, rfl, h⟩ | ⟨r, rfl, h⟩ | ⟨r, rfl, h⟩
  · simp [is_working, h]
  · subst h
    simp [is_working]
  · simp only [is_working]
    by_cases hh : hostOf url = ""
    · rw [if_pos hh]
    · rw [if_neg hh, if_pos (by omega)]
  · simp only [is_working]
    by_cases hh : hostOf url = ""
    · rw [if_pos hh]
    · rw [if_neg hh]
      by_cases hs : ¬ (200 ≤ r.status ∧ r.status < 400)
      · rw [if_pos hs]
      · rw [if_neg hs, if_pos h]
  · simp only [is_working]
    by_cases hh : hostOf url = ""
    · rw [if_pos hh]
    · rw [if_neg hh]
      by_cases hs : ¬ (200 ≤ r.status ∧ r.status < 400)
      · rw [if_pos hs]
      · rw [if_neg hs]
        by_cases hf : hostOf r.finalUrl = ""
        · rw [if_pos hf]
        · rw [if_neg hf, if_pos h]

theorem validator_rejects_witness :
    ((fun _ => "") "http://x" = "" ∨
      (none : Option FetchResponse) = none ∨
      (∃ r, (none : Option FetchResponse) = some r ∧
        (r.status < 200 ∨ 400 ≤ r.status)) ∨
      (∃ r, (none : Option FetchResponse) = some r ∧
        (fun _ => "") r.finalUrl = "") ∨
      (∃ r, (none : Option FetchResponse) = some r ∧
        ¬ ("text/html".data <:+: lowerL r.contentType.data))) ∧
    is_working (fun _ => "") none "http://x" = none :=
  ⟨Or.inl rfl, validator_rejects (fun _ => "") none "http://x" (Or.inl rfl)⟩

/-- Claim C9: with zero candidates the coordinator returns "no winner"
immediately: no validation task is started (the task count is 0), for any
limit and any scheduling. -/
theorem race_empty (total_limit : Nat)
    (completions : List (String × Option WatchLink)) :
    find_first_watch_link [] total_limit completions = (none, 0) := by
  simp [find_first_watch_link]

/-! ## Candidate list (C7) -/

/-- The seen-set dedup loop computes first-occurrence deduplication of the
not-yet-seen elements. -/
theorem dedupFirst_eq_spec : ∀ (l : List String) (seen : List String),
    dedupFirst seen l =
      specDedupByFirstOccurrence (l.filter (fun v => v ∉ seen)) := by
  intro l
  induction l with
  | nil =>
    intro seen
    simp [dedupFirst, specDedupByFirstOccurrence]
  | cons u us ih =>
    intro seen
    by_cases hu : u ∈ seen
    · rw [List.filter_cons_of_neg (by simpa using hu)]
      simp only [dedupFirst, if_pos hu]
      exact ih seen
    · rw [List.filter_cons_of_pos (by simpa using hu)]
      simp only [dedupFirst, if_neg hu]
      rw [specDedupByFirstOccurrence, ih (u :: seen), List.filter_filter]
      congr 1
      exact congrArg specDedupByFirstOccurrence (List.filter_congr (by
        intro a _
        by_cases h1 : a = u <;> by_cases h2 : a ∈ seen <;>
          simp [h1, h2]))

theorem specDedup_sublist : ∀ l : List String,
    List.Sublist (specDedupByFirstOccurrence l) l
  | [] => by simp [specDedupByFirstOccurrence]
  | u :: us => by
    rw [specDedupByFirstOccurrence]
    exact List.Sublist.cons₂ u
      ((specDedup_sublist (us.filter (fun v => v ≠ u))).trans
        (List.filter_sublist us))
termination_by l => l.length
decreasing_by
  simp only [List.length_cons]
  exact Nat.lt_succ_of_le (List.length_filter_le _ _)

theorem specDedup_nodup : ∀ l : List String,
    (specDedupByFirstOccurrence l).Nodup
  | [] => by simp [specDedupByFirstOccurrence]
  | u :: us => by
    rw [specDedupByFirstOccurrence, List.nodup_cons]
    refine ⟨?_, specDedup_nodup (us.filter (fun v => v ≠ u))⟩
    intro hmem
    have hmem' := (specDedup_sublist (us.filter (fun v => v ≠ u))).subset hmem
    simp at hmem'
termination_by l => l.length
decreasing_by
  simp only [List.length_cons]
  exact Nat.lt_succ_of_le (List.length_filter_le _ _)

/-- Claim C7: the candidate list handed to the race coordinator is the
discovered URL sequence with duplicates removed by first occurrence
(refines the spec-side definition), hence distinct, a subsequence of the
discovery order, and truncated to at most `total_limit` elements. -/
theorem candidate_list_spec (results : List String) (total_limit : Nat) :
    search_candidates_sync results =
      specDedupByFirstOccurrence
        ((results.map (fun s => String.mk (stripL s.data))).filter
          (fun u => "http://".data.isPrefixOf u.data ||
            "https://".data.isPrefixOf u.data)) ∧
    ((search_candidates_sync results).take total_limit).Nodup ∧
    List.Sublist ((search_candidates_sync results).take total_limit)
      ((results.map (fun s => String.mk (stripL s.data))).filter
        (fun u => "http://".data.isPrefixOf u.data ||
          "https://".data.isPrefixOf u.data)) ∧
    ((search_candidates_sync results).take total_limit).length ≤
      total_limit := by
  have h0 : search_candidates_sync results =
      specDedupByFirstOccurrence
        ((results.map (fun s => String.mk (stripL s.data))).filter
          (fun u => "http://".data.isPrefixOf u.data ||
            "https://".data.isPrefixOf u.data)) := by
    simp only [search_candidates_sync]
    rw [dedupFirst_eq_spec]
    congr 1
    apply List.filter_eq_self.mpr
    intro a _
    simp
  refine ⟨h0, ?_, ?_, List.length_take_le _ _⟩
  · rw [h0]
    exact (List.take_sublist _ _).nodup (specDedup_nodup _)
  · rw [h0]
    exact (List.take_sublist _ _).trans (specDedup_sublist _)

/-! ## Metadata resolution cache flow (C1, C8) -/

open TTLCache in
/-- Claim C8: when metadata resolution succeeds (search finds `m0`,
enrichment yields `dOpt`, kept match `m = dOpt.getD m0`), `on_query`
writes `m` into the cache under both the normalized raw-query key and the
normalized canonical-title key, and a subsequent query that normalizes to
the canonical title is a cache hit: it returns `m` with zero collaborator
calls.  `hroom` gives the cache room for the two writes (so `_trim` never
evicts), `hmiss` makes the first call a clean miss, and `ht` keeps the
second call inside the TTL window. -/
theorem dual_key_write_back (cache : TTLCache (Option MovieMeta))
    (q1 q2 : String) (m0 : MovieMeta) (dOpt : Option MovieMeta)
    (s2 d2 : Except Unit (Option MovieMeta)) (t1 t2 : Nat)
    (hroom : cache.data.length + 2 ≤ cache.maxsize)
    (hmiss : findEntry (norm_query q1) cache.data = none)
    (hq2 : norm_query q2 = norm_query (dOpt.getD m0).title)
    (ht : t2 ≤ t1 + cache.ttl) :
    (on_query_meta cache q1 (Except.ok (some m0)) (Except.ok dOpt) t1).1 =
      some (dOpt.getD m0) ∧
    (on_query_meta cache q1 (Except.ok (some m0)) (Except.ok dOpt)
      t1).2.2 = 2 ∧
    findEntry (norm_query q1)
      (on_query_meta cache q1 (Except.ok (some m0)) (Except.ok dOpt)
        t1).2.1.data = some ⟨some (dOpt.getD m0), t1 + cache.ttl⟩ ∧
    findEntry (norm_query (dOpt.getD m0).title)
      (on_query_meta cache q1 (Except.ok (some m0)) (Except.ok dOpt)
        t1).2.1.data = some ⟨some (dOpt.getD m0), t1 + cache.ttl⟩ ∧
    on_query_meta
      (on_query_meta cache q1 (Except.ok (some m0)) (Except.ok dOpt)
        t1).2.1 q2 s2 d2 t2 =
      (some (dOpt.getD m0),
        (on_query_meta cache q1 (Except.ok (some m0)) (Except.ok dOpt)
          t1).2.1, 0) := by
  have hrun : on_query_meta cache q1 (Except.ok (some m0)) (Except.ok dOpt)
      t1 =
      (some (dOpt.getD m0),
        ((cache.set (norm_query q1) (some (dOpt.getD m0)) t1).set
          (norm_query (dOpt.getD m0).title) (some (dOpt.getD m0)) t1),
        2) := by
    simp only [on_query_meta]
    rw [get_eq_none hmiss]
    rfl
  have hroom1 : cache.data.length < cache.maxsize := by omega
  have hc1find : findEntry (norm_query q1)
      (cache.set (norm_query q1) (some (dOpt.getD m0)) t1).data =
      some ⟨some (dOpt.getD m0), t1 + cache.ttl⟩ :=
    findEntry_set_self cache _ _ t1 hroom1
  have hc1len : (cache.set (norm_query q1) (some (dOpt.getD m0))
      t1).data.length ≤ cache.data.length + 1 := by
    show (trim cache.maxsize t1 _).length ≤ _
    rw [trim_eq_filter (le_trans (List.length_filter_le _ _)
      (le_trans (length_insertEntry _ _ _) (by omega)))]
    exact le_trans (List.length_filter_le _ _) (length_insertEntry _ _ _)
  have hroom2 : (cache.set (norm_query q1) (some (dOpt.getD m0))
      t1).data.length < (cache.set (norm_query q1) (some (dOpt.getD m0))
      t1).maxsize := by
    show _ < cache.maxsize
    omega
  have htk : findEntry (norm_query (dOpt.getD m0).title)
      ((cache.set (norm_query q1) (some (dOpt.getD m0)) t1).set
        (norm_query (dOpt.getD m0).title) (some (dOpt.getD m0))
        t1).data = some ⟨some (dOpt.getD m0), t1 + cache.ttl⟩ :=
    findEntry_set_self _ _ _ t1 hroom2
  have huk : findEntry (norm_query q1)
      ((cache.set (norm_query q1) (some (dOpt.getD m0)) t1).set
        (norm_query (dOpt.getD m0).title) (some (dOpt.getD m0))
        t1).data = some ⟨some (dOpt.getD m0), t1 + cache.ttl⟩ := by
    by_cases heq : norm_query (dOpt.getD m0).title = norm_query q1
    · nth_rewrite 1 [← heq]
      exact htk
    · show findEntry (norm_query q1)
        (trim _ t1 (insertEntry (norm_query (dOpt.getD m0).title) _ _)) = _
      rw [trim_eq_filter (le_trans (List.length_filter_le _ _)
        (le_trans (length_insertEntry _ _ _) (by
          show (cache.set (norm_query q1) (some (dOpt.getD m0))
            t1).data.length + 1 ≤ cache.maxsize
          omega)))]
      refine findEntry_filter_some ?_ (by simp)
      rw [findEntry_insertEntry_ne (fun hh => heq hh.symm)]
      exact hc1find
  have hrun2 : on_query_meta
      ((cache.set (norm_query q1) (some (dOpt.getD m0)) t1).set
        (norm_query (dOpt.getD m0).title) (some (dOpt.getD m0)) t1)
      q2 s2 d2 t2 =
      (some (dOpt.getD m0),
        ((cache.set (norm_query q1) (some (dOpt.getD m0)) t1).set
          (norm_query (dOpt.getD m0).title) (some (dOpt.getD m0)) t1),
        0) := by
    simp only [on_query_meta]
    rw [hq2, get_eq_live htk (show ¬ t1 + cache.ttl < t2 by omega)]
    rfl
  rw [hrun]
  exact ⟨rfl, rfl, huk, htk, hrun2⟩

theorem dual_key_write_back_witness :
    (on_query_meta ⟨100, 2, []⟩ "intersteller"
      (Except.ok (some ⟨1, "movie", "Interstellar", none, none, none,
        none⟩)) (Except.ok none) 0).1 =
      some ((none : Option MovieMeta).getD
        ⟨1, "movie", "Interstellar", none, none, none, none⟩) ∧
    (on_query_meta ⟨100, 2, []⟩ "intersteller"
      (Except.ok (some ⟨1, "movie", "Interstellar", none, none, none,
        none⟩)) (Except.ok none) 0).2.2 = 2 ∧
    TTLCache.findEntry (norm_query "intersteller")
      (on_query_meta ⟨100, 2, []⟩ "intersteller"
        (Except.ok (some ⟨1, "movie", "Interstellar", none, none, none,
          none⟩)) (Except.ok none) 0).2.1.data =
      some ⟨some ((none : Option MovieMeta).getD
        ⟨1, "movie", "Interstellar", none, none, none, none⟩), 0 + 100⟩ ∧
    TTLCache.findEntry
      (norm_query ((none : Option MovieMeta).getD
        ⟨1, "movie", "Interstellar", none, none, none, none⟩).title)
      (on_query_meta ⟨100, 2, []⟩ "intersteller"
        (Except.ok (some ⟨1, "movie", "Interstellar", none, none, none,
          none⟩)) (Except.ok none) 0).2.1.data =
      some ⟨some ((none : Option MovieMeta).getD
        ⟨1, "movie", "Interstellar", none, none, none, none⟩), 0 + 100⟩ ∧
    on_query_meta
      (on_query_meta ⟨100, 2, []⟩ "intersteller"
        (Except.ok (some ⟨1, "movie", "Interstellar", none, none, none,
          none⟩)) (Except.ok none) 0).2.1
      "Interstellar" (Except.ok none) (Except.ok none) 50 =
      (some ((none : Option MovieMeta).getD
        ⟨1, "movie", "Interstellar", none, none, none, none⟩),
        (on_query_meta ⟨100, 2, []⟩ "intersteller"
          (Except.ok (some ⟨1, "movie", "Interstellar", none, none, none,
            none⟩)) (Except.ok none) 0).2.1, 0) :=
  dual_key_write_back ⟨100, 2, []⟩ "intersteller" "Interstellar"
    ⟨1, "movie", "Interstellar", none, none, none, none⟩ none
    (Except.ok none) (Except.ok none) 0 50
    (by decide) (by decide) (by decide) (by decide)

/-- Claim C1 (code evidence): a metadata lookup that finds no catalog match
does write an explicit negative (`None`) entry into the cache under the
normalized query key — the entry is present in the mapping, distinct from
a missing key — but a second call with the same normalized query within
the TTL window still makes a collaborator call (count 1, not 0): Python's
`meta = meta_cache.get(user_key)` returns `None` for the stored negative
exactly as for a miss, so the negative cannot short-circuit the lookup. -/
theorem negative_cache_read_back_is_miss :
    TTLCache.findEntry "matrix"
      (on_query_meta ⟨1800, 512, []⟩ "matrix" (Except.ok none)
        (Except.ok none) 100).2.1.data = some ⟨none, 1900⟩ ∧
    (on_query_meta
      (on_query_meta ⟨1800, 512, []⟩ "matrix" (Except.ok none)
        (Except.ok none) 100).2.1
      "matrix" (Except.ok none) (Except.ok none) 200).2.2 = 1 := by
  constructor
  · decide
  · decide

end Cinemabot
